import Mathlib

/-!
Verification of the rpki-client core declared in
`src/usr.sbin/rpki-client/extern.h`.

The repository ships only the header `extern.h`; the function bodies
(`vrpcmp`, `roa_insert_vrps`, `ip_addr_check_covered`, `valid_ski_aki`,
the `*_buffer`/`*_read` serializers, …) are not part of src/.  Each
operation is therefore modelled from the natural-language specification,
over data types transcribed from the header's structures.  C byte arrays
and C strings are modelled as lists of naturals, machine integers as
`Nat`/`Int` with explicit bounds where overflow matters.
-/

namespace Rpki

/-- AFI values, from `enum afi` in extern.h (`AFI_IPV4 = 1`, `AFI_IPV6 = 2`). -/
inductive Afi where
  | ipv4
  | ipv6
deriving DecidableEq

/-- The numeric IANA value of an AFI (`AFI_IPV4 = 1`, `AFI_IPV6 = 2`). -/
def Afi.val : Afi → Nat
  | .ipv4 => 1
  | .ipv6 => 2

/-- An IP address as parsed from RFC 3779 (`struct ip_addr` in extern.h):
the binary address bytes plus the number of valid bits. -/
structure IpAddr where
  addr : List Nat
  prefixlen : Nat
deriving DecidableEq

/-- An IP address range from minimum to maximum (`struct ip_addr_range`). -/
structure IpAddrRange where
  min : IpAddr
  max : IpAddr
deriving DecidableEq

/-- `memcmp`-style comparison of byte sequences: unsigned lexicographic
byte order, as the spec stipulates for address comparisons. -/
def cmpBytes : List Nat → List Nat → Ordering
  | [], [] => .eq
  | [], _ :: _ => .lt
  | _ :: _, [] => .gt
  | x :: xs, y :: ys => (compare x y).then (cmpBytes xs ys)

theorem cmpBytes_eq_iff : ∀ (xs ys : List Nat), cmpBytes xs ys = .eq ↔ xs = ys
  | [], [] => by simp [cmpBytes]
  | [], _ :: _ => by simp [cmpBytes]
  | _ :: _, [] => by simp [cmpBytes]
  | x :: xs, y :: ys => by
    simp [cmpBytes, Ordering.then_eq_eq, Nat.compare_eq_eq, cmpBytes_eq_iff xs ys]

theorem cmpBytes_gt_iff : ∀ (xs ys : List Nat), cmpBytes xs ys = .gt ↔ cmpBytes ys xs = .lt
  | [], [] => by simp [cmpBytes]
  | [], _ :: _ => by simp [cmpBytes]
  | _ :: _, [] => by simp [cmpBytes]
  | x :: xs, y :: ys => by
    simp only [cmpBytes, Ordering.then_eq_gt, Ordering.then_eq_lt, Nat.compare_eq_gt,
      Nat.compare_eq_lt, Nat.compare_eq_eq, cmpBytes_gt_iff xs ys]
    constructor
    · rintro (h | ⟨h1, h2⟩)
      · exact Or.inl h
      · exact Or.inr ⟨h1.symm, h2⟩
    · rintro (h | ⟨h1, h2⟩)
      · exact Or.inl h
      · exact Or.inr ⟨h1.symm, h2⟩

theorem cmpBytes_lt_trans :
    ∀ (xs ys zs : List Nat), cmpBytes xs ys = .lt → cmpBytes ys zs = .lt →
      cmpBytes xs zs = .lt := by
  intro xs
  induction xs with
  | nil => intro ys zs h1 h2; cases ys <;> cases zs <;> simp_all [cmpBytes]
  | cons x xs ih =>
    intro ys zs h1 h2
    cases ys with
    | nil => simp [cmpBytes] at h1
    | cons y ys =>
      cases zs with
      | nil => simp [cmpBytes] at h2
      | cons z zs =>
        simp only [cmpBytes, Ordering.then_eq_lt, Nat.compare_eq_lt,
          Nat.compare_eq_eq] at h1 h2 ⊢
        rcases h1 with h1 | ⟨e1, r1⟩ <;> rcases h2 with h2 | ⟨e2, r2⟩
        · exact Or.inl (by omega)
        · exact Or.inl (by omega)
        · exact Or.inl (by omega)
        · exact Or.inr ⟨by omega, ih ys zs r1 r2⟩

/-- A single VRP element (`struct vrp` in extern.h): address, origin AS,
TAL provenance, AFI, maxlength and transitive expiry moment. -/
structure Vrp where
  addr : IpAddr
  asid : Nat
  tal : List Nat
  afi : Afi
  maxlength : Nat
  expires : Int
deriving DecidableEq

/-- Modelled from the spec: the composite iteration key of the VRP store,
`(AFI, address bytes zero-padded to 16, prefixlen, maxlen, asid)`.  The
comparison function `vrpcmp` is declared in extern.h (RB-tree prototype)
but its body is not part of src/, so the key and order follow the spec's
words. -/
structure VrpKey where
  afi : Nat
  addrBytes : List Nat
  prefixlen : Nat
  maxlength : Nat
  asid : Nat
deriving DecidableEq

/-- Zero-pad a byte sequence on the right to 16 bytes. -/
def pad16 (l : List Nat) : List Nat := l ++ List.replicate (16 - l.length) 0

/-- The composite key of a VRP. -/
def vrpKey (v : Vrp) : VrpKey :=
  ⟨v.afi.val, pad16 v.addr.addr, v.addr.prefixlen, v.maxlength, v.asid⟩

/-- Innermost comparison tail: maxlength, then asid. -/
def vrpCmpTail2 (a b : VrpKey) : Ordering :=
  (compare a.maxlength b.maxlength).then (compare a.asid b.asid)

/-- Comparison tail from prefixlen down. -/
def vrpCmpTail1 (a b : VrpKey) : Ordering :=
  (compare a.prefixlen b.prefixlen).then (vrpCmpTail2 a b)

/-- Comparison tail from the address bytes down. -/
def vrpCmpTail0 (a b : VrpKey) : Ordering :=
  (cmpBytes a.addrBytes b.addrBytes).then (vrpCmpTail1 a b)

/-- Modelled from the spec: VRP store comparison — ascending on AFI, then
on address bytes (unsigned lexicographic, zero-padded to 16), then
prefixlen, maxlen, asid. -/
def vrpKeyCmp (a b : VrpKey) : Ordering :=
  (compare a.afi b.afi).then (vrpCmpTail0 a b)

/-- `vrpcmp` of the `vrp_tree` RB-tree prototype, modelled from the spec
as comparison of the composite keys. -/
def vrpcmp (a b : Vrp) : Ordering := vrpKeyCmp (vrpKey a) (vrpKey b)

/-- Strict order on VRP keys. -/
def vrpKeyLt (a b : VrpKey) : Prop := vrpKeyCmp a b = .lt

/-- Strict order on VRPs, as the tree uses it. -/
def vrpLt (a b : Vrp) : Prop := vrpcmp a b = .lt

instance (a b : VrpKey) : Decidable (vrpKeyLt a b) :=
  inferInstanceAs (Decidable (vrpKeyCmp a b = .lt))

instance (a b : Vrp) : Decidable (vrpLt a b) :=
  inferInstanceAs (Decidable (vrpcmp a b = .lt))

/-- Transitivity propagates through one lexicographic comparison step. -/
theorem then_cmp_lt_trans {α β : Type} (f : α → β) (cb : β → β → Ordering)
    (rest : α → α → Ordering)
    (cbEq : ∀ x y, cb x y = .eq ↔ x = y)
    (cbTrans : ∀ x y z, cb x y = .lt → cb y z = .lt → cb x z = .lt)
    (restTrans : ∀ a b c, rest a b = .lt → rest b c = .lt → rest a c = .lt)
    (a b c : α)
    (h1 : (cb (f a) (f b)).then (rest a b) = .lt)
    (h2 : (cb (f b) (f c)).then (rest b c) = .lt) :
    (cb (f a) (f c)).then (rest a c) = .lt := by
  rw [Ordering.then_eq_lt] at h1 h2 ⊢
  rcases h1 with h1 | ⟨e1, r1⟩ <;> rcases h2 with h2 | ⟨e2, r2⟩
  · exact Or.inl (cbTrans _ _ _ h1 h2)
  · rw [cbEq] at e2
    rw [e2] at h1
    exact Or.inl h1
  · rw [cbEq] at e1
    rw [← e1] at h2
    exact Or.inl h2
  · rw [cbEq] at e1 e2
    refine Or.inr ⟨?_, restTrans _ _ _ r1 r2⟩
    rw [cbEq]
    exact e1.trans e2

/-- Swapping the arguments turns `gt` into `lt` through one lexicographic
comparison step. -/
theorem then_cmp_gt_iff {α β : Type} (f : α → β) (cb : β → β → Ordering)
    (rest : α → α → Ordering)
    (cbEq : ∀ x y, cb x y = .eq ↔ x = y)
    (cbGt : ∀ x y, cb x y = .gt ↔ cb y x = .lt)
    (restGt : ∀ a b, rest a b = .gt ↔ rest b a = .lt)
    (a b : α) :
    (cb (f a) (f b)).then (rest a b) = .gt ↔
      (cb (f b) (f a)).then (rest b a) = .lt := by
  rw [Ordering.then_eq_gt, Ordering.then_eq_lt]
  constructor
  · rintro (h | ⟨e, r⟩)
    · exact Or.inl ((cbGt _ _).mp h)
    · rw [cbEq] at e
      refine Or.inr ⟨?_, (restGt _ _).mp r⟩
      rw [cbEq]
      exact e.symm
  · rintro (h | ⟨e, r⟩)
    · exact Or.inl ((cbGt _ _).mpr h)
    · rw [cbEq] at e
      refine Or.inr ⟨?_, (restGt _ _).mpr r⟩
      rw [cbEq]
      exact e.symm

theorem natCompare_lt_trans (x y z : Nat) :
    compare x y = .lt → compare y z = .lt → compare x z = .lt := by
  simp only [Nat.compare_eq_lt]
  omega

theorem natCompare_gt_iff (x y : Nat) : compare x y = .gt ↔ compare y x = .lt := by
  simp only [Nat.compare_eq_gt, Nat.compare_eq_lt]

theorem vrpCmpTail2_lt_trans (a b c : VrpKey) :
    vrpCmpTail2 a b = .lt → vrpCmpTail2 b c = .lt → vrpCmpTail2 a c = .lt :=
  then_cmp_lt_trans VrpKey.maxlength compare (fun a b => compare a.asid b.asid)
    (fun _ _ => Nat.compare_eq_eq)
    natCompare_lt_trans
    (fun _ _ _ => natCompare_lt_trans _ _ _) a b c

theorem vrpCmpTail1_lt_trans (a b c : VrpKey) :
    vrpCmpTail1 a b = .lt → vrpCmpTail1 b c = .lt → vrpCmpTail1 a c = .lt :=
  then_cmp_lt_trans VrpKey.prefixlen compare vrpCmpTail2
    (fun _ _ => Nat.compare_eq_eq)
    natCompare_lt_trans
    vrpCmpTail2_lt_trans a b c

theorem vrpCmpTail0_lt_trans (a b c : VrpKey) :
    vrpCmpTail0 a b = .lt → vrpCmpTail0 b c = .lt → vrpCmpTail0 a c = .lt :=
  then_cmp_lt_trans VrpKey.addrBytes cmpBytes vrpCmpTail1
    cmpBytes_eq_iff
    cmpBytes_lt_trans
    vrpCmpTail1_lt_trans a b c

theorem vrpKeyCmp_lt_trans (a b c : VrpKey) :
    vrpKeyCmp a b = .lt → vrpKeyCmp b c = .lt → vrpKeyCmp a c = .lt :=
  then_cmp_lt_trans VrpKey.afi compare vrpCmpTail0
    (fun _ _ => Nat.compare_eq_eq)
    natCompare_lt_trans
    vrpCmpTail0_lt_trans a b c

theorem vrpCmpTail2_gt_iff (a b : VrpKey) :
    vrpCmpTail2 a b = .gt ↔ vrpCmpTail2 b a = .lt :=
  then_cmp_gt_iff VrpKey.maxlength compare (fun a b => compare a.asid b.asid)
    (fun _ _ => Nat.compare_eq_eq)
    natCompare_gt_iff
    (fun _ _ => natCompare_gt_iff _ _) a b

theorem vrpCmpTail1_gt_iff (a b : VrpKey) :
    vrpCmpTail1 a b = .gt ↔ vrpCmpTail1 b a = .lt :=
  then_cmp_gt_iff VrpKey.prefixlen compare vrpCmpTail2
    (fun _ _ => Nat.compare_eq_eq)
    natCompare_gt_iff
    vrpCmpTail2_gt_iff a b

theorem vrpCmpTail0_gt_iff (a b : VrpKey) :
    vrpCmpTail0 a b = .gt ↔ vrpCmpTail0 b a = .lt :=
  then_cmp_gt_iff VrpKey.addrBytes cmpBytes vrpCmpTail1
    cmpBytes_eq_iff
    cmpBytes_gt_iff
    vrpCmpTail1_gt_iff a b

theorem vrpKeyCmp_gt_iff (a b : VrpKey) :
    vrpKeyCmp a b = .gt ↔ vrpKeyCmp b a = .lt :=
  then_cmp_gt_iff VrpKey.afi compare vrpCmpTail0
    (fun _ _ => Nat.compare_eq_eq)
    natCompare_gt_iff
    vrpCmpTail0_gt_iff a b

theorem vrpKeyCmp_eq_iff (a b : VrpKey) : vrpKeyCmp a b = .eq ↔ a = b := by
  simp only [vrpKeyCmp, vrpCmpTail0, vrpCmpTail1, vrpCmpTail2, Ordering.then_eq_eq,
    Nat.compare_eq_eq, cmpBytes_eq_iff]
  constructor
  · rintro ⟨h1, h2, h3, h4, h5⟩
    cases a
    cases b
    simp_all
  · rintro rfl
    simp

theorem vrpKeyLt_irrefl (k : VrpKey) : ¬ vrpKeyLt k k := by
  intro h
  have he : vrpKeyCmp k k = .eq := (vrpKeyCmp_eq_iff k k).mpr rfl
  rw [vrpKeyLt] at h
  rw [he] at h
  exact Ordering.noConfusion h

theorem vrpKeyLt_trichotomy (a b : VrpKey) :
    vrpKeyLt a b ∨ a = b ∨ vrpKeyLt b a := by
  rcases h : vrpKeyCmp a b with _ | _ | _
  · exact Or.inl h
  · exact Or.inr (Or.inl ((vrpKeyCmp_eq_iff a b).mp h))
  · exact Or.inr (Or.inr ((vrpKeyCmp_gt_iff a b).mp h))

/-- Modelled from the spec: iterating the VRP store yields its elements
with strictly ascending adjacent keys (the in-order walk of the
`vrp_tree` RB tree). -/
def VrpTreeOrdered (l : List Vrp) : Prop := List.Chain' vrpLt l

instance : IsTrans Vrp vrpLt :=
  ⟨fun a b c => vrpKeyCmp_lt_trans (vrpKey a) (vrpKey b) (vrpKey c)⟩

instance (l : List Vrp) : Decidable (VrpTreeOrdered l) :=
  inferInstanceAs (Decidable (List.Chain' vrpLt l))

/-- C1: the VRP comparison on composite keys
`(AFI, address bytes zero-padded to 16, prefixlen, maxlen, asid)` is a
strict total order (irreflexive, transitive, trichotomous), and iterating
an ordered VRP store visits any two distinct positions in strictly
ascending key order. -/
theorem c1_vrp_iteration_total_order :
    (∀ k : VrpKey, ¬ vrpKeyLt k k) ∧
    (∀ a b c : VrpKey, vrpKeyLt a b → vrpKeyLt b c → vrpKeyLt a c) ∧
    (∀ a b : VrpKey, vrpKeyLt a b ∨ a = b ∨ vrpKeyLt b a) ∧
    (∀ (s : List Vrp), VrpTreeOrdered s →
      ∀ (i j : Nat) (hi : i < s.length) (hj : j < s.length), i < j →
        vrpKeyLt (vrpKey (s.get ⟨i, hi⟩)) (vrpKey (s.get ⟨j, hj⟩))) := by
  refine ⟨vrpKeyLt_irrefl, vrpKeyCmp_lt_trans, vrpKeyLt_trichotomy, ?_⟩
  intro s hs i j hi hj hij
  have hp : List.Pairwise vrpLt s := List.chain'_iff_pairwise.mp hs
  exact List.pairwise_iff_get.mp hp ⟨i, hi⟩ ⟨j, hj⟩ hij

/-- Sample VRP used by witnesses. -/
def vrpSampleA : Vrp :=
  { addr := { addr := [10, 0, 0, 0], prefixlen := 8 }
    asid := 64496
    tal := []
    afi := .ipv4
    maxlength := 8
    expires := 1000 }

/-- Sample VRP used by witnesses, key-greater than `vrpSampleA`. -/
def vrpSampleB : Vrp :=
  { addr := { addr := [10, 1, 0, 0], prefixlen := 16 }
    asid := 64500
    tal := []
    afi := .ipv4
    maxlength := 24
    expires := 2000 }

theorem c1_witness :
    vrpKeyLt (vrpKey vrpSampleA) (vrpKey vrpSampleB) :=
  c1_vrp_iteration_total_order.2.2.2 [vrpSampleA, vrpSampleB]
    (List.Chain.cons (by decide) List.Chain.nil)
    0 1 (by decide) (by decide) (by decide)

/-- An IP address prefix of a ROA (`struct roa_ip` in extern.h): AFI,
maxlength, canonical `[min,max]` range bytes and the prefix itself. -/
structure RoaIp where
  afi : Afi
  maxlength : Nat
  min : List Nat
  max : List Nat
  addr : IpAddr
deriving DecidableEq

/-- A ROA (`struct roa` in extern.h): the concerned asID, its IP
prefixes, validity flag, AIA/AKI/SKI, TAL provenance and expiry. -/
structure Roa where
  asid : Nat
  ips : List RoaIp
  valid : Bool
  aia : List Nat
  aki : List Nat
  ski : List Nat
  tal : List Nat
  expires : Int
deriving DecidableEq

/-- Modelled from the spec: the VRP built for one `(prefix, maxlen)`
entry of a ROA — the entry's prefix and AFI with the ROA's asid, TAL
provenance and expiry. -/
def vrpOfRoaIp (r : Roa) (ip : RoaIp) : Vrp :=
  { addr := ip.addr
    asid := r.asid
    tal := r.tal
    afi := ip.afi
    maxlength := ip.maxlength
    expires := r.expires }

/-- The entry of the (list-modelled) VRP store holding the key of `v`. -/
def vrpLookup (t : List Vrp) (v : Vrp) : Option Vrp :=
  t.find? (fun w => decide (vrpcmp v w = .eq))

/-- Modelled from the spec: insertion of one VRP into the store.  On
collision with an existing key the stored `expires` is raised to the max
of both and the rest of the stored entry (including the TAL provenance of
the first inserter) is kept; otherwise the VRP is added as a new entry.
Returns the new store and whether a new key was added. -/
def vrpInsert (t : List Vrp) (v : Vrp) : List Vrp × Bool :=
  match t with
  | [] => ([v], true)
  | w :: ws =>
    if vrpcmp v w = .eq then
      ({ w with expires := max w.expires v.expires } :: ws, false)
    else
      let p := vrpInsert ws v
      (w :: p.1, p.2)

/-- Modelled from the spec: one step of `roa_insert_vrps` — insert the
VRP of one ROA entry, increment the total counter unconditionally and the
unique counter only when a new key was added.  The state is
`(store, uniques, total)`. -/
def roaInsertStep (r : Roa) (st : List Vrp × Nat × Nat) (ip : RoaIp) :
    List Vrp × Nat × Nat :=
  let p := vrpInsert st.1 (vrpOfRoaIp r ip)
  (p.1, if p.2 then st.2.1 + 1 else st.2.1, st.2.2 + 1)

/-- `roa_insert_vrps` modelled from the spec: fold the insertion step
over the ROA's `(prefix, maxlen)` entries. -/
def roa_insert_vrps (t : List Vrp) (r : Roa) (uniq total : Nat) :
    List Vrp × Nat × Nat :=
  r.ips.foldl (roaInsertStep r) (t, uniq, total)

theorem roaInsertFold_total (r : Roa) :
    ∀ (l : List RoaIp) (st : List Vrp × Nat × Nat),
      (l.foldl (roaInsertStep r) st).2.2 = st.2.2 + l.length
  | [], st => by simp
  | ip :: l, st => by
    rw [List.foldl_cons, roaInsertFold_total r l]
    simp only [roaInsertStep, List.length_cons]
    omega

theorem vrpInsert_new : ∀ (t : List Vrp) (v : Vrp), vrpLookup t v = none →
    vrpInsert t v = (t ++ [v], true)
  | [], _, _ => rfl
  | w :: ws, v, h => by
    by_cases hc : vrpcmp v w = .eq
    · simp [vrpLookup, List.find?_cons, hc] at h
    · simp only [vrpLookup, List.find?_cons, hc, decide_False,
        Bool.false_eq_true] at h
      rw [vrpInsert.eq_def]
      simp only [hc, if_false, ite_false]
      rw [vrpInsert_new ws v h]
      simp

theorem vrpInsert_dup : ∀ (t : List Vrp) (v w : Vrp), vrpLookup t v = some w →
    (vrpInsert t v).2 = false ∧
    (vrpInsert t v).1.length = t.length ∧
    vrpLookup (vrpInsert t v).1 v =
      some { w with expires := max w.expires v.expires }
  | [], v, w, h => by simp [vrpLookup] at h
  | u :: us, v, w, h => by
    by_cases hc : vrpcmp v u = .eq
    · simp only [vrpLookup, List.find?_cons, hc, decide_True,
        Option.some_inj] at h
      subst h
      refine ⟨by simp [vrpInsert, hc], by simp [vrpInsert, hc], ?_⟩
      have hkey : vrpcmp v { u with expires := max u.expires v.expires } =
          vrpcmp v u := rfl
      simp [vrpInsert, hc, vrpLookup, List.find?_cons, hkey]
    · simp only [vrpLookup, List.find?_cons, hc, decide_False,
        Bool.false_eq_true] at h
      have ih := vrpInsert_dup us v w h
      refine ⟨?_, ?_, ?_⟩
      · simpa [vrpInsert, hc] using ih.1
      · simpa [vrpInsert, hc] using ih.2.1
      · rw [vrpInsert.eq_def]
        simp only [hc, ite_false]
        simp only [vrpLookup, List.find?_cons, hc, decide_False]
        exact ih.2.2

theorem vrpInsert_added_iff : ∀ (t : List Vrp) (v : Vrp),
    (vrpInsert t v).2 = true ↔ vrpLookup t v = none
  | [], v => by simp [vrpInsert, vrpLookup]
  | w :: ws, v => by
    by_cases hc : vrpcmp v w = .eq <;>
      simp [vrpInsert, vrpLookup, List.find?_cons, hc,
        vrpInsert_added_iff ws v, List.find?_eq_none]

/-- C2: `roa_insert_vrps` inserts one VRP per `(prefix, maxlen)` entry of
the ROA; the total counter is incremented once per entry unconditionally;
inserting a fresh key appends the VRP and reports a new key; on collision
the stored entry keeps everything (including TAL provenance) except that
`expires` becomes the max of existing and new; the unique counter is
incremented exactly when the key was not previously present. -/
theorem c2_roa_insert_vrps :
    (∀ (t : List Vrp) (r : Roa) (uniq total : Nat),
      (roa_insert_vrps t r uniq total).2.2 = total + r.ips.length) ∧
    (∀ (t : List Vrp) (v : Vrp), vrpLookup t v = none →
      vrpInsert t v = (t ++ [v], true)) ∧
    (∀ (t : List Vrp) (v w : Vrp), vrpLookup t v = some w →
      (vrpInsert t v).2 = false ∧
      (vrpInsert t v).1.length = t.length ∧
      vrpLookup (vrpInsert t v).1 v =
        some { w with expires := max w.expires v.expires }) ∧
    (∀ (r : Roa) (st : List Vrp × Nat × Nat) (ip : RoaIp),
      (roaInsertStep r st ip).2.1 =
        if vrpLookup st.1 (vrpOfRoaIp r ip) = none then st.2.1 + 1
        else st.2.1) := by
  refine ⟨fun t r uniq total => roaInsertFold_total r r.ips (t, uniq, total),
    vrpInsert_new, vrpInsert_dup, ?_⟩
  intro r st ip
  by_cases h : vrpLookup st.1 (vrpOfRoaIp r ip) = none
  · have := (vrpInsert_added_iff st.1 (vrpOfRoaIp r ip)).mpr h
    simp [roaInsertStep, this, h]
  · have hb : (vrpInsert st.1 (vrpOfRoaIp r ip)).2 = false := by
      rcases hfb : (vrpInsert st.1 (vrpOfRoaIp r ip)).2 with _ | _
      · rfl
      · exact absurd ((vrpInsert_added_iff st.1 (vrpOfRoaIp r ip)).mp hfb) h
    simp [roaInsertStep, hb, h]

theorem c2_witness :
    vrpInsert [vrpSampleA] vrpSampleB = ([vrpSampleA, vrpSampleB], true) :=
  c2_roa_insert_vrps.2.1 [vrpSampleA] vrpSampleB (by decide)

/-- A single CRL (`struct crl` in extern.h): the issuer's AKI and the
parsed CRL (the opaque `X509_CRL` handle, modelled as an abstract tag
since the crypto library is out of scope). -/
structure Crl where
  aki : List Nat
  x509crl : Nat
deriving DecidableEq

/-- Lookup in the CRL index by AKI. -/
def crlLookup (t : List Crl) (aki : List Nat) : Option Crl :=
  t.find? (fun c => decide (c.aki = aki))

/-- Modelled from the spec: installing an accepted CRL in the CRL tree
keyed by the issuer's AKI (`crl_tree`/`crlcmp`, whose bodies are not
under src/).  RB-tree insertion leaves the tree unchanged when the key is
already present, so a duplicate AKI is never installed twice. -/
def crlInsert (t : List Crl) (c : Crl) : List Crl :=
  if (crlLookup t c.aki).isSome then t else c :: t

/-- The AKI keys of the CRL index are pairwise distinct. -/
def CrlKeysDistinct (t : List Crl) : Prop :=
  List.Pairwise (fun a b => a.aki ≠ b.aki) t

instance (t : List Crl) : Decidable (CrlKeysDistinct t) :=
  inferInstanceAs (Decidable (List.Pairwise _ t))

theorem crlKeysDistinct_insert (t : List Crl) (c : Crl)
    (h : CrlKeysDistinct t) : CrlKeysDistinct (crlInsert t c) := by
  rw [crlInsert]
  by_cases hs : (crlLookup t c.aki).isSome
  · rw [if_pos hs]
    exact h
  · rw [if_neg hs]
    refine List.pairwise_cons.mpr ⟨?_, h⟩
    intro b hb he
    rw [Option.not_isSome_iff_eq_none, crlLookup, List.find?_eq_none] at hs
    exact hs b hb (by simp [he])

theorem crl_filter_le_one : ∀ (t : List Crl), CrlKeysDistinct t →
    ∀ (aki : List Nat),
      (t.filter (fun c => decide (c.aki = aki))).length ≤ 1
  | [], _, _ => by simp
  | c :: t, h, aki => by
    rcases List.pairwise_cons.mp h with ⟨hc, ht⟩
    rw [List.filter_cons]
    by_cases he : c.aki = aki
    · rw [if_pos (by simp [he])]
      have hnil : t.filter (fun c => decide (c.aki = aki)) = [] := by
        rw [List.filter_eq_nil_iff]
        intro b hb
        simp only [decide_eq_true_eq]
        intro hbk
        exact hc b hb (he.trans hbk.symm)
      rw [hnil]
      simp
    · rw [if_neg (by simp [he])]
      exact crl_filter_le_one t ht aki

/-- C3: starting from the empty index and installing CRLs keyed by AKI,
the index always holds at most one entry per AKI, a freshly installed CRL
is retrieved by its AKI, and installation never disturbs the entry of any
other AKI. -/
theorem c3_crl_index_keyed_by_aki :
    CrlKeysDistinct ([] : List Crl) ∧
    (∀ (t : List Crl) (c : Crl), CrlKeysDistinct t →
      CrlKeysDistinct (crlInsert t c)) ∧
    (∀ (t : List Crl) (c : Crl), crlLookup t c.aki = none →
      crlLookup (crlInsert t c) c.aki = some c) ∧
    (∀ (t : List Crl) (c : Crl) (aki : List Nat), aki ≠ c.aki →
      crlLookup (crlInsert t c) aki = crlLookup t aki) ∧
    (∀ (t : List Crl), CrlKeysDistinct t → ∀ (aki : List Nat),
      (t.filter (fun c => decide (c.aki = aki))).length ≤ 1) := by
  refine ⟨List.Pairwise.nil, crlKeysDistinct_insert, ?_, ?_, crl_filter_le_one⟩
  · intro t c h
    rw [crlInsert, h]
    simp [crlLookup, List.find?_cons]
  · intro t c aki hne
    rw [crlInsert]
    by_cases hs : (crlLookup t c.aki).isSome
    · rw [if_pos hs]
    · rw [if_neg hs]
      simp [crlLookup, List.find?_cons, Ne.symm hne]

theorem c3_witness :
    crlLookup (crlInsert [] ⟨[7, 7], 1⟩) [7, 7] = some ⟨[7, 7], 1⟩ :=
  c3_crl_index_keyed_by_aki.2.2.1 [] ⟨[7, 7], 1⟩ (by decide)

/-- The entry type of a certificate IP element (`enum cert_ip_type`). -/
inductive CertIpType where
  | addr
  | inherit
  | range
deriving DecidableEq

/-- A single IP address family element of a certificate (`struct cert_ip`
in extern.h): the AFI, the entry type, the canonical full-range
minimum/maximum bytes, and the parsed address and range payloads (the C
union is modelled with both members present; only the one selected by
`type` is meaningful). -/
structure CertIp where
  afi : Afi
  type : CertIpType
  min : List Nat
  max : List Nat
  ip : IpAddr
  range : IpAddrRange
deriving DecidableEq

/-- Modelled from the spec: `[qmin,qmax]` is fully contained in the
element's canonical `[min,max]` range, under unsigned lexicographic byte
comparison. -/
def certIpCovers (p : CertIp) (qmin qmax : List Nat) : Bool :=
  decide (cmpBytes p.min qmin ≠ .gt) && decide (cmpBytes qmax p.max ≠ .gt)

/-- `ip_addr_check_covered` modelled from the spec: returns 1 if
`[qmin,qmax]` is fully contained in some element of the parent array for
this AFI, 0 if it is not covered, and -1 if the parent holds INHERIT for
this AFI. -/
def ip_addr_check_covered (afi : Afi) (qmin qmax : List Nat) :
    List CertIp → Int
  | [] => 0
  | p :: ps =>
    if p.afi = afi then
      if p.type = .inherit then -1
      else if certIpCovers p qmin qmax then 1
      else ip_addr_check_covered afi qmin qmax ps
    else ip_addr_check_covered afi qmin qmax ps

/-- The parent array holds an INHERIT element for this AFI. -/
def hasInherit (afi : Afi) (ps : List CertIp) : Prop :=
  ∃ p ∈ ps, p.afi = afi ∧ p.type = .inherit

/-- The parent array holds a non-INHERIT element for this AFI covering
`[qmin,qmax]`. -/
def hasCover (afi : Afi) (qmin qmax : List Nat) (ps : List CertIp) : Prop :=
  ∃ p ∈ ps, p.afi = afi ∧ p.type ≠ .inherit ∧ certIpCovers p qmin qmax = true

/-- The RFC 3779 structural invariant of a parsed certificate, per the
spec: a family that holds an INHERIT element holds no other element of
that family. -/
def InheritExclusive (afi : Afi) (ps : List CertIp) : Prop :=
  hasInherit afi ps → ∀ p ∈ ps, p.afi = afi → p.type = .inherit

instance (afi : Afi) (ps : List CertIp) : Decidable (hasInherit afi ps) :=
  inferInstanceAs (Decidable (∃ p ∈ ps, _ ∧ _))

instance (afi : Afi) (qmin qmax : List Nat) (ps : List CertIp) :
    Decidable (hasCover afi qmin qmax ps) :=
  inferInstanceAs (Decidable (∃ p ∈ ps, _ ∧ _ ∧ _))

instance (afi : Afi) (ps : List CertIp) : Decidable (InheritExclusive afi ps) :=
  inferInstanceAs (Decidable (_ → ∀ p ∈ ps, _ → _))

theorem inheritExclusive_tail (afi : Afi) (p : CertIp) (ps : List CertIp)
    (h : InheritExclusive afi (p :: ps)) : InheritExclusive afi ps := by
  rintro ⟨r, hr, hra, hrt⟩ q hq hqa
  exact h ⟨r, List.mem_cons_of_mem _ hr, hra, hrt⟩ q
    (List.mem_cons_of_mem _ hq) hqa

theorem ipCheckCoveredChar (afi : Afi) (qmin qmax : List Nat) :
    ∀ (ps : List CertIp), InheritExclusive afi ps →
      (ip_addr_check_covered afi qmin qmax ps = -1 ↔ hasInherit afi ps) ∧
      (ip_addr_check_covered afi qmin qmax ps = 1 ↔
        ¬ hasInherit afi ps ∧ hasCover afi qmin qmax ps) ∧
      (ip_addr_check_covered afi qmin qmax ps = 0 ↔
        ¬ hasInherit afi ps ∧ ¬ hasCover afi qmin qmax ps)
  | [], _ => by simp [ip_addr_check_covered, hasInherit, hasCover]
  | p :: ps, hinv => by
    have IH := ipCheckCoveredChar afi qmin qmax ps
      (inheritExclusive_tail afi p ps hinv)
    by_cases ha : p.afi = afi
    · by_cases ht : p.type = .inherit
      · have hin : hasInherit afi (p :: ps) := ⟨p, List.mem_cons_self p ps, ha, ht⟩
        rw [ip_addr_check_covered, if_pos ha, if_pos ht]
        refine ⟨by simp [hin], ?_, ?_⟩
        · constructor
          · intro h
            exact absurd h (by decide)
          · rintro ⟨hni, _⟩
            exact absurd hin hni
        · constructor
          · intro h
            exact absurd h (by decide)
          · rintro ⟨hni, _⟩
            exact absurd hin hni
      · have hni : ¬ hasInherit afi (p :: ps) := by
          intro hin
          exact ht (hinv hin p (List.mem_cons_self p ps) ha)
        by_cases hcov : certIpCovers p qmin qmax = true
        · have hcv : hasCover afi qmin qmax (p :: ps) :=
            ⟨p, List.mem_cons_self p ps, ha, ht, hcov⟩
          rw [ip_addr_check_covered, if_pos ha, if_neg ht, if_pos hcov]
          refine ⟨?_, by simp [hni, hcv], ?_⟩
          · constructor
            · intro h
              exact absurd h (by decide)
            · intro hin
              exact absurd hin hni
          · constructor
            · intro h
              exact absurd h (by decide)
            · rintro ⟨_, hnc⟩
              exact absurd hcv hnc
        · have hlift_in : hasInherit afi (p :: ps) ↔ hasInherit afi ps := by
            simp only [hasInherit, List.mem_cons]
            constructor
            · rintro ⟨q, hq | hq, hqa, hqt⟩
              · exact absurd (hq ▸ hqt) ht
              · exact ⟨q, hq, hqa, hqt⟩
            · rintro ⟨q, hq, hqa, hqt⟩
              exact ⟨q, Or.inr hq, hqa, hqt⟩
          have hlift_cv : hasCover afi qmin qmax (p :: ps) ↔
              hasCover afi qmin qmax ps := by
            simp only [hasCover, List.mem_cons]
            constructor
            · rintro ⟨q, hq | hq, hqa, hqt, hqc⟩
              · exact absurd (hq ▸ hqc) hcov
              · exact ⟨q, hq, hqa, hqt, hqc⟩
            · rintro ⟨q, hq, hqa, hqt, hqc⟩
              exact ⟨q, Or.inr hq, hqa, hqt, hqc⟩
          rw [ip_addr_check_covered, if_pos ha, if_neg ht, if_neg hcov,
            hlift_in, hlift_cv]
          exact IH
    · have hlift_in : hasInherit afi (p :: ps) ↔ hasInherit afi ps := by
        simp only [hasInherit, List.mem_cons]
        constructor
        · rintro ⟨q, hq | hq, hqa, hqt⟩
          · exact absurd (hq ▸ hqa) ha
          · exact ⟨q, hq, hqa, hqt⟩
        · rintro ⟨q, hq, hqa, hqt⟩
          exact ⟨q, Or.inr hq, hqa, hqt⟩
      have hlift_cv : hasCover afi qmin qmax (p :: ps) ↔
          hasCover afi qmin qmax ps := by
        simp only [hasCover, List.mem_cons]
        constructor
        · rintro ⟨q, hq | hq, hqa, hqt, hqc⟩
          · exact absurd (hq ▸ hqa) ha
          · exact ⟨q, hq, hqa, hqt, hqc⟩
        · rintro ⟨q, hq, hqa, hqt, hqc⟩
          exact ⟨q, Or.inr hq, hqa, hqt, hqc⟩
      rw [ip_addr_check_covered, if_neg ha, hlift_in, hlift_cv]
      exact IH

/-- C4: under the certificate invariant that INHERIT excludes other
elements of the family, `ip_addr_check_covered` returns -1 exactly when
the parent holds INHERIT for the AFI, 1 exactly when `[qmin,qmax]` is
contained in some parent element for the AFI, 0 exactly otherwise; the
three outcomes are exhaustive and mutually exclusive. -/
theorem c4_ip_addr_check_covered_trichotomy (afi : Afi)
    (qmin qmax : List Nat) (ps : List CertIp)
    (hinv : InheritExclusive afi ps) :
    (ip_addr_check_covered afi qmin qmax ps = -1 ↔ hasInherit afi ps) ∧
    (ip_addr_check_covered afi qmin qmax ps = 1 ↔
      ¬ hasInherit afi ps ∧ hasCover afi qmin qmax ps) ∧
    (ip_addr_check_covered afi qmin qmax ps = 0 ↔
      ¬ hasInherit afi ps ∧ ¬ hasCover afi qmin qmax ps) ∧
    (ip_addr_check_covered afi qmin qmax ps = -1 ∨
     ip_addr_check_covered afi qmin qmax ps = 0 ∨
     ip_addr_check_covered afi qmin qmax ps = 1) := by
  obtain ⟨h1, h2, h3⟩ := ipCheckCoveredChar afi qmin qmax ps hinv
  refine ⟨h1, h2, h3, ?_⟩
  by_cases hin : hasInherit afi ps
  · exact Or.inl (h1.mpr hin)
  · by_cases hcv : hasCover afi qmin qmax ps
    · exact Or.inr (Or.inr (h2.mpr ⟨hin, hcv⟩))
    · exact Or.inr (Or.inl (h3.mpr ⟨hin, hcv⟩))

/-- A sample covering parent element for witnesses: all of IPv4. -/
def certIpSampleV4 : CertIp :=
  { afi := .ipv4
    type := .addr
    min := [0, 0, 0, 0]
    max := [255, 255, 255, 255]
    ip := { addr := [0, 0, 0, 0], prefixlen := 0 }
    range := { min := { addr := [0, 0, 0, 0], prefixlen := 32 }
               max := { addr := [255, 255, 255, 255], prefixlen := 32 } } }

theorem c4_witness :
    ip_addr_check_covered .ipv4 [10, 0, 0, 0] [10, 255, 255, 255]
      [certIpSampleV4] = 1 :=
  (c4_ip_addr_check_covered_trichotomy .ipv4 [10, 0, 0, 0]
    [10, 255, 255, 255] [certIpSampleV4] (by decide)).2.1.mpr (by decide)

/-- An AS identifier range (`struct cert_as_range` in extern.h). -/
structure CertAsRange where
  min : Nat
  max : Nat
deriving DecidableEq

/-- An autonomous system object (`struct cert_as` in extern.h): the
tagged union of a single identifier, INHERIT, or a range. -/
inductive CertAs where
  | id (id : Nat)
  | inherit
  | range (r : CertAsRange)
deriving DecidableEq

/-- Modelled from the spec: the query `[qmin,qmax]` is contained in one
AS element (an identifier is the degenerate range `[id,id]`). -/
def certAsCovers (p : CertAs) (qmin qmax : Nat) : Bool :=
  match p with
  | .id i => decide (i ≤ qmin ∧ qmax ≤ i)
  | .inherit => false
  | .range r => decide (r.min ≤ qmin ∧ qmax ≤ r.max)

/-- `as_check_covered` modelled from the spec: the AS analog of
`ip_addr_check_covered` over 32-bit integers — 1 if `[qmin,qmax]` is
contained in some element, 0 if not covered, -1 on INHERIT. -/
def as_check_covered (qmin qmax : Nat) : List CertAs → Int
  | [] => 0
  | p :: ps =>
    if p = .inherit then -1
    else if certAsCovers p qmin qmax then 1
    else as_check_covered qmin qmax ps

/-- C8: replacing the degenerate range element `{min=x, max=x}` by the
singleton element `{id=x}` anywhere in the parent set leaves
`as_check_covered` unchanged for every query range. -/
theorem c8_as_degenerate_range_eq_singleton (x qmin qmax : Nat)
    (l1 l2 : List CertAs) :
    as_check_covered qmin qmax (l1 ++ .range ⟨x, x⟩ :: l2) =
      as_check_covered qmin qmax (l1 ++ .id x :: l2) := by
  induction l1 with
  | nil =>
    simp [List.nil_append, as_check_covered, certAsCovers]
  | cons p l1 ih =>
    simp only [List.cons_append, as_check_covered, List.append_eq]
    rw [ih]

/-- A parsed certificate (`struct cert` in extern.h): RFC 3779 resource
lists, repository/manifest/notify/CRL/AIA/AKI/SKI strings and the
validity flag.  `notify`, `crl`, `aia` and `aki` may be NULL in the C
struct and are options here; the opaque `X509 *` handle belongs to the
out-of-scope crypto library and is not modelled. -/
structure Cert where
  ips : List CertIp
  asRes : List CertAs
  repo : List Nat
  mft : List Nat
  notify : Option (List Nat)
  crl : Option (List Nat)
  aia : Option (List Nat)
  aki : Option (List Nat)
  ski : List Nat
  valid : Bool
deriving DecidableEq

/-- An authentication tuple (`struct auth` in extern.h).  Following the
spec's design notes, the non-owning parent pointer is modelled as an
index into the arena of installed nodes; the node's key is its cert's
SKI. -/
structure Auth where
  cert : Cert
  parent : Option Nat
  tal : List Nat
  fn : List Nat
deriving DecidableEq

/-- `auth_find`: lookup in the SKI-keyed auth tree. -/
def auth_find (t : List Auth) (ski : List Nat) : Option Auth :=
  t.find? (fun a => decide (a.cert.ski = ski))

/-- `valid_ski_aki` modelled from the spec: the chain entry point fails
when `ski` is already a key in the tree (duplicate subject) or when `aki`
does not resolve; otherwise it returns the parent node keyed by `aki`. -/
def valid_ski_aki (t : List Auth) (ski aki : List Nat) : Option Auth :=
  if (auth_find t ski).isSome then none
  else auth_find t aki

/-- C6: `valid_ski_aki` succeeds exactly when `ski` is not yet a key of
the tree and `aki` resolves; on success the returned node is the one
found under `aki`, and its key is `aki`. -/
theorem c6_valid_ski_aki (t : List Auth) (ski aki : List Nat) :
    ((valid_ski_aki t ski aki).isSome ↔
      auth_find t ski = none ∧ (auth_find t aki).isSome) ∧
    (∀ a : Auth, valid_ski_aki t ski aki = some a →
      auth_find t ski = none ∧ auth_find t aki = some a ∧
        a.cert.ski = aki) := by
  by_cases hs : (auth_find t ski).isSome
  · rw [valid_ski_aki, if_pos hs]
    constructor
    · simp only [Option.isSome_none, Bool.false_eq_true, false_iff, not_and]
      intro hn
      rw [hn] at hs
      simp at hs
    · intro a ha
      exact absurd ha (by simp)
  · rw [valid_ski_aki, if_neg hs]
    rw [Option.not_isSome_iff_eq_none] at hs
    refine ⟨by simp [hs], ?_⟩
    intro a ha
    refine ⟨hs, ha, ?_⟩
    have := List.find?_some ha
    simpa using this

/-- A sample auth node used by witnesses. -/
def authSample : Auth :=
  { cert :=
      { ips := [certIpSampleV4]
        asRes := [.id 64496]
        repo := [1]
        mft := [2]
        notify := none
        crl := none
        aia := none
        aki := none
        ski := [9, 9]
        valid := true }
    parent := none
    tal := [5]
    fn := [] }

theorem c6_witness :
    auth_find [authSample] [1, 2] = none ∧
    auth_find [authSample] [9, 9] = some authSample ∧
    authSample.cert.ski = [9, 9] :=
  (c6_valid_ski_aki [authSample] [1, 2] [9, 9]).2 authSample (by decide)

/-- Resource types (`enum rtype` in extern.h); `RTYPE_EOF` has value 0,
the rest follow in declaration order. -/
inductive Rtype where
  | eof
  | tal
  | mft
  | roa
  | cer
  | crl
  | gbr
deriving DecidableEq

/-- The numeric value of an rtype (`RTYPE_EOF = 0`). -/
def Rtype.val : Rtype → Nat
  | .eof => 0
  | .tal => 1
  | .mft => 2
  | .roa => 3
  | .cer => 4
  | .crl => 5
  | .gbr => 6

/-- An entity pending download and parse (`struct entity` in extern.h).
The TAILQ link is implicit in the queue's list structure. -/
structure Entity where
  type : Rtype
  file : List Nat
  hasPkey : Bool
  pkey : List Nat
  descr : List Nat
deriving DecidableEq

/-- Modelled from the spec: the entity kind chosen from a manifest
entry's filename suffix (`.cer` / `.roa` / `.crl` / `.gbr`, as bytes);
unknown suffixes are ignored silently. -/
def rtypeOfSuffix (file : List Nat) : Option Rtype :=
  if [46, 99, 101, 114].isSuffixOf file then some .cer
  else if [46, 114, 111, 97].isSuffixOf file then some .roa
  else if [46, 99, 114, 108].isSuffixOf file then some .crl
  else if [46, 103, 98, 114].isSuffixOf file then some .gbr
  else none

/-- Modelled from the spec: the ways the orchestrator enqueues work —
a TAL-derived trust anchor fetch (with public key override), a manifest
fetch for a CA certificate, or a manifest entry dispatched on its
filename suffix. -/
inductive QueueOp where
  | qtal (file pkey descr : List Nat)
  | qmft (file descr : List Nat)
  | qmftEntry (file descr : List Nat)

/-- The entities produced by one enqueue operation. -/
def queueOpEntities : QueueOp → List Entity
  | .qtal file pkey descr => [⟨.tal, file, true, pkey, descr⟩]
  | .qmft file descr => [⟨.mft, file, false, [], descr⟩]
  | .qmftEntry file descr =>
    match rtypeOfSuffix file with
    | some ty => [⟨ty, file, false, [], descr⟩]
    | none => []

/-- The FIFO work queue built by a sequence of enqueue operations. -/
def entityqBuild : List QueueOp → List Entity
  | [] => []
  | op :: ops => queueOpEntities op ++ entityqBuild ops

theorem rtypeOfSuffix_cases (file : List Nat) (ty : Rtype)
    (h : rtypeOfSuffix file = some ty) :
    ty = .cer ∨ ty = .roa ∨ ty = .crl ∨ ty = .gbr := by
  rw [rtypeOfSuffix] at h
  split_ifs at h <;> simp_all

/-- C9: every entity ever placed on the work queue has a type among
TAL/MFT/ROA/CER/CRL/GBR; the sentinel `RTYPE_EOF` (value 0) never
appears as a queued entity's type. -/
theorem c9_entityq_never_eof : ∀ (ops : List QueueOp),
    ∀ e ∈ entityqBuild ops,
      e.type ≠ Rtype.eof ∧ e.type.val ≠ 0 ∧
      (e.type = .tal ∨ e.type = .mft ∨ e.type = .roa ∨ e.type = .cer ∨
       e.type = .crl ∨ e.type = .gbr)
  | [] => by simp [entityqBuild]
  | op :: ops => by
    intro e he
    rw [entityqBuild, List.mem_append] at he
    rcases he with he | he
    · cases op with
      | qtal file pkey descr =>
        rw [queueOpEntities, List.mem_singleton] at he
        subst he
        exact ⟨by simp, by simp [Rtype.val], by simp⟩
      | qmft file descr =>
        rw [queueOpEntities, List.mem_singleton] at he
        subst he
        exact ⟨by simp, by simp [Rtype.val], by simp⟩
      | qmftEntry file descr =>
        rw [queueOpEntities] at he
        rcases hty : rtypeOfSuffix file with _ | ty
        · rw [hty] at he
          simp at he
        · rw [hty, List.mem_singleton] at he
          subst he
          rcases rtypeOfSuffix_cases file ty hty with h | h | h | h <;>
            subst h <;> exact ⟨by simp, by simp [Rtype.val], by simp⟩
    · exact c9_entityq_never_eof ops e he

theorem c9_witness :
    (⟨Rtype.mft, [1], false, [], [2]⟩ : Entity).type ≠ Rtype.eof ∧
    (⟨Rtype.mft, [1], false, [], [2]⟩ : Entity).type.val ≠ 0 ∧
    ((⟨Rtype.mft, [1], false, [], [2]⟩ : Entity).type = .tal ∨
     (⟨Rtype.mft, [1], false, [], [2]⟩ : Entity).type = .mft ∨
     (⟨Rtype.mft, [1], false, [], [2]⟩ : Entity).type = .roa ∨
     (⟨Rtype.mft, [1], false, [], [2]⟩ : Entity).type = .cer ∨
     (⟨Rtype.mft, [1], false, [], [2]⟩ : Entity).type = .crl ∨
     (⟨Rtype.mft, [1], false, [], [2]⟩ : Entity).type = .gbr) :=
  c9_entityq_never_eof [.qmft [1] [2]] ⟨Rtype.mft, [1], false, [], [2]⟩
    (by decide)

/-- Raw AS resource items as they appear in the DER extension, before
validation. -/
inductive RawAs where
  | rid (id : Nat)
  | rinherit
  | rrange (min max : Nat)

/-- Modelled from the spec and the header's field documentation
(`uint32_t min; /* minimum non-zero */`): parsing one AS range — the
minimum must be non-zero, must not exceed the maximum, and the maximum
must fit in 32 bits (RFC 6793). -/
def asRangeParse (mn mx : Nat) : Option CertAsRange :=
  if mn = 0 then none
  else if mx < mn then none
  else if 4294967295 < mx then none
  else some ⟨mn, mx⟩

/-- Modelled from the spec: parsing one raw AS element of the
certificate extension. -/
def rawAsParse : RawAs → Option CertAs
  | .rid i => if 4294967295 < i then none else some (.id i)
  | .rinherit => some .inherit
  | .rrange mn mx => (asRangeParse mn mx).map .range

/-- Modelled from the spec: parsing the AS resource list of a
certificate element by element; any invalid element fails the parse. -/
def certAsListParse : List RawAs → Option (List CertAs)
  | [] => some []
  | i :: rest =>
    match rawAsParse i, certAsListParse rest with
    | some e, some l => some (e :: l)
    | _, _ => none

theorem rawAsParse_range_bounds (i : RawAs) (rg : CertAsRange)
    (h : rawAsParse i = some (.range rg)) :
    rg.min ≠ 0 ∧ rg.min ≤ rg.max := by
  cases i with
  | rid n =>
    rw [rawAsParse] at h
    split_ifs at h
    simp at h
  | rinherit =>
    rw [rawAsParse] at h
    simp at h
  | rrange mn mx =>
    rw [rawAsParse, asRangeParse] at h
    split_ifs at h with h1 h2 h3
    all_goals simp_all
    subst h
    exact ⟨h1, h2⟩

/-- C10: in every AS range element of a successfully parsed certificate
AS resource list, the minimum is non-zero and does not exceed the
maximum. -/
theorem c10_cert_as_range_min_nonzero : ∀ (raw : List RawAs)
    (out : List CertAs), certAsListParse raw = some out →
    ∀ e ∈ out, ∀ rg : CertAsRange, e = .range rg →
      rg.min ≠ 0 ∧ rg.min ≤ rg.max
  | [], out, h => by
    rw [certAsListParse] at h
    simp only [Option.some_inj] at h
    subst h
    simp
  | i :: rest, out, h => by
    rw [certAsListParse] at h
    rcases he : rawAsParse i with _ | e
    · rw [he] at h
      simp at h
    · rcases hl : certAsListParse rest with _ | l
      · rw [he, hl] at h
        simp at h
      · rw [he, hl] at h
        simp only [Option.some_inj] at h
        subst h
        intro x hx rg hrg
        rw [List.mem_cons] at hx
        rcases hx with hx | hx
        · subst hx
          subst hrg
          exact rawAsParse_range_bounds i rg he
        · exact c10_cert_as_range_min_nonzero rest l hl x hx rg hrg

/-- Family maximum prefix length: 32 for IPv4, 128 for IPv6. -/
def afiMaxLength : Afi → Nat
  | .ipv4 => 32
  | .ipv6 => 128

/-- Modelled from the spec: the per-entry maxlength bounds check of ROA
validation — `prefixlen ≤ maxlength` and `maxlength ≤ family max`. -/
def roaIpBoundsOk (ip : RoaIp) : Bool :=
  decide (ip.addr.prefixlen ≤ ip.maxlength) &&
    decide (ip.maxlength ≤ afiMaxLength ip.afi)

/-- Index-returning variant of `auth_find`, for walking parent links. -/
def authFindIdx (t : List Auth) (ski : List Nat) : Option Nat :=
  t.findIdx? (fun a => decide (a.cert.ski = ski))

/-- Modelled from the spec: walking the chain upward from an auth node,
grounding INHERIT at the nearest non-inheriting ancestor.  The fuel
bounds the walk by the arena size. -/
def validIpWalk (arena : List Auth) (afi : Afi) (qmin qmax : List Nat) :
    Nat → Nat → Bool
  | 0, _ => false
  | fuel + 1, idx =>
    match arena[idx]? with
    | none => false
    | some a =>
      if ip_addr_check_covered afi qmin qmax a.cert.ips = 1 then true
      else if ip_addr_check_covered afi qmin qmax a.cert.ips = -1 then
        match a.parent with
        | none => false
        | some pidx => validIpWalk arena afi qmin qmax fuel pidx
      else false

/-- Modelled from the spec: `valid_roa` locates the EE certificate's
node via SKI/AKI, then requires for every `(AFI, prefix, maxlength)`
entry of the ROA that the cert's IP resources cover the prefix and that
`prefixlen ≤ maxlength ≤ family max`. -/
def valid_roa (arena : List Auth) (r : Roa) : Bool :=
  match (if (auth_find arena r.ski).isSome then none
         else authFindIdx arena r.aki) with
  | none => false
  | some ai =>
    r.ips.all (fun ip =>
      roaIpBoundsOk ip &&
        validIpWalk arena ip.afi ip.min ip.max arena.length ai)

/-- C7: every entry of a ROA accepted by validation satisfies
`prefixlen ≤ maxlength ≤ family max` (32 for IPv4, 128 for IPv6); an
entry with `maxlength < prefixlen` forces rejection of the ROA; the
bounds check accepts `maxlength = prefixlen`. -/
theorem c7_valid_roa_maxlength_bounds (arena : List Auth) (r : Roa) :
    (valid_roa arena r = true →
      ∀ ip ∈ r.ips, ip.addr.prefixlen ≤ ip.maxlength ∧
        ip.maxlength ≤ afiMaxLength ip.afi) ∧
    (∀ ip ∈ r.ips, ip.maxlength < ip.addr.prefixlen →
      valid_roa arena r = false) ∧
    (∀ ip : RoaIp, ip.maxlength = ip.addr.prefixlen →
      ip.maxlength ≤ afiMaxLength ip.afi → roaIpBoundsOk ip = true) := by
  have hmain : valid_roa arena r = true →
      ∀ ip ∈ r.ips, ip.addr.prefixlen ≤ ip.maxlength ∧
        ip.maxlength ≤ afiMaxLength ip.afi := by
    intro h ip hip
    rcases hm : (if (auth_find arena r.ski).isSome then none
                 else authFindIdx arena r.aki) with _ | ai
    · rw [valid_roa, hm] at h
      simp at h
    · rw [valid_roa, hm] at h
      simp only [List.all_eq_true, Bool.and_eq_true] at h
      have := (h ip hip).1
      simp only [roaIpBoundsOk, Bool.and_eq_true, decide_eq_true_eq] at this
      exact this
  refine ⟨hmain, ?_, ?_⟩
  · intro ip hip hlt
    rcases hv : valid_roa arena r with _ | _
    · rfl
    · have := (hmain hv ip hip).1
      omega
  · intro ip he hle
    simp only [roaIpBoundsOk, Bool.and_eq_true, decide_eq_true_eq]
    omega

/-- A sample ROA entry at the `maxlength = prefixlen` boundary. -/
def roaIpSample : RoaIp :=
  { afi := .ipv4
    maxlength := 16
    min := [10, 1, 0, 0]
    max := [10, 1, 255, 255]
    addr := { addr := [10, 1], prefixlen := 16 } }

/-- A sample ROA holding `roaIpSample`. -/
def roaSample : Roa :=
  { asid := 64500
    ips := [roaIpSample]
    valid := false
    aia := []
    aki := []
    ski := []
    tal := []
    expires := 0 }

theorem c7_witness : roaIpBoundsOk roaIpSample = true :=
  (c7_valid_roa_maxlength_bounds [] roaSample).2.2 roaIpSample
    (by decide) (by decide)

theorem c10_witness : (64496 : Nat) ≠ 0 ∧ (64496 : Nat) ≤ 64511 :=
  c10_cert_as_range_min_nonzero [.rrange 64496 64511]
    [.range ⟨64496, 64511⟩] (by decide) (.range ⟨64496, 64511⟩)
    (by decide) ⟨64496, 64511⟩ rfl

/-!
Framed IPC, modelled from the spec: `simple` writes raw fixed-width
scalars, `buf` and `str` write `uint32 length || bytes`; the `*_buffer`
serializers append to a byte buffer and the `*_read` decoders consume a
byte stream, here modelled as `List Nat` with decoders returning the
value and the remaining stream, or `none` on malformed input.  Scalars
are serialized little-endian.
-/

/-- `io_simple_buffer` of a 32-bit scalar: four bytes little-endian. -/
def encU32 (n : Nat) : List Nat :=
  [n % 256, n / 256 % 256, n / 65536 % 256, n / 16777216 % 256]

/-- Decode a 32-bit scalar. -/
def rdU32 : List Nat → Option (Nat × List Nat)
  | b0 :: b1 :: b2 :: b3 :: l =>
    some (b0 + 256 * b1 + 65536 * b2 + 16777216 * b3, l)
  | _ => none

theorem rdU32_enc (n : Nat) (r : List Nat) (h : n < 4294967296) :
    rdU32 (encU32 n ++ r) = some (n, r) := by
  simp only [encU32, List.cons_append, List.nil_append, rdU32,
    Option.some_inj, Prod.mk.injEq]
  exact ⟨by omega, trivial⟩

/-- `io_simple_buffer` of a 64-bit scalar (`size_t`): low and high
32-bit halves. -/
def encU64 (n : Nat) : List Nat :=
  encU32 (n % 4294967296) ++ encU32 (n / 4294967296)

/-- Decode a 64-bit scalar. -/
def rdU64 (l : List Nat) : Option (Nat × List Nat) :=
  (rdU32 l).bind fun p =>
    (rdU32 p.2).bind fun q => some (p.1 + 4294967296 * q.1, q.2)

theorem rdU64_enc (n : Nat) (r : List Nat) (h : n < 18446744073709551616) :
    rdU64 (encU64 n ++ r) = some (n, r) := by
  rw [encU64, List.append_assoc, rdU64, rdU32_enc _ _ (by omega)]
  simp only [Option.some_bind]
  rw [rdU32_enc _ _ (by omega)]
  simp only [Option.some_bind, Option.some_inj, Prod.mk.injEq]
  exact ⟨by omega, trivial⟩

/-- `io_simple_buffer` of a signed 64-bit scalar (`time_t`), in two's
complement. -/
def encI64 (t : Int) : List Nat :=
  encU64 (t % 18446744073709551616).toNat

/-- Decode a signed 64-bit scalar. -/
def rdI64 (l : List Nat) : Option (Int × List Nat) :=
  (rdU64 l).bind fun p =>
    some (if p.1 < 9223372036854775808 then (p.1 : Int)
          else (p.1 : Int) - 18446744073709551616, p.2)

theorem rdI64_enc (t : Int) (r : List Nat)
    (h1 : -9223372036854775808 ≤ t) (h2 : t < 9223372036854775808) :
    rdI64 (encI64 t ++ r) = some (t, r) := by
  rw [encI64, rdI64, rdU64_enc _ _ (by omega)]
  simp only [Option.some_bind, Option.some_inj, Prod.mk.injEq]
  refine ⟨?_, trivial⟩
  split_ifs with hc <;> omega

/-- Read a fixed number of raw bytes. -/
def rdBytes : Nat → List Nat → Option (List Nat × List Nat)
  | 0, l => some ([], l)
  | _ + 1, [] => none
  | n + 1, b :: l =>
    (rdBytes n l).bind fun p => some (b :: p.1, p.2)

theorem rdBytes_enc : ∀ (xs r : List Nat),
    rdBytes xs.length (xs ++ r) = some (xs, r)
  | [], _ => rfl
  | x :: xs, r => by
    rw [List.length_cons, List.cons_append, rdBytes, rdBytes_enc xs r]
    simp only [Option.some_bind]

/-- `io_buf_buffer`: `uint32 length || bytes`. -/
def encBuf (b : List Nat) : List Nat := encU32 b.length ++ b

/-- Decode a length-prefixed byte buffer. -/
def rdBuf (l : List Nat) : Option (List Nat × List Nat) :=
  (rdU32 l).bind fun p => rdBytes p.1 p.2

theorem rdBuf_enc (b r : List Nat) (h : b.length < 4294967296) :
    rdBuf (encBuf b ++ r) = some (b, r) := by
  rw [encBuf, List.append_assoc, rdBuf, rdU32_enc _ _ h]
  simp only [Option.some_bind]
  exact rdBytes_enc b r

/-- `io_str_buffer`: `uint32 length || utf8 bytes`, no terminator on the
wire (strings are modelled as their byte sequences). -/
def encStr (s : List Nat) : List Nat := encBuf s

/-- Decode a length-prefixed string. -/
def rdStr (l : List Nat) : Option (List Nat × List Nat) := rdBuf l

theorem rdStr_enc (s r : List Nat) (h : s.length < 4294967296) :
    rdStr (encStr s ++ r) = some (s, r) := rdBuf_enc s r h

/-- An optional (possibly NULL) string: one presence byte, then the
string when present. -/
def encOptStr : Option (List Nat) → List Nat
  | none => [0]
  | some s => 1 :: encStr s

/-- Decode an optional string. -/
def rdOptStr : List Nat → Option (Option (List Nat) × List Nat)
  | 0 :: l => some (none, l)
  | 1 :: l => (rdStr l).bind fun p => some (some p.1, p.2)
  | _ => none

/-- An optional string is well formed when its length fits the `uint32`
prefix. -/
def optStrWF : Option (List Nat) → Prop
  | none => True
  | some s => s.length < 4294967296

instance : ∀ (o : Option (List Nat)), Decidable (optStrWF o)
  | none => inferInstanceAs (Decidable True)
  | some _ => inferInstanceAs (Decidable (_ < _))

theorem rdOptStr_enc (o : Option (List Nat)) (r : List Nat)
    (h : optStrWF o) : rdOptStr (encOptStr o ++ r) = some (o, r) := by
  cases o with
  | none => rfl
  | some s =>
    rw [encOptStr, List.cons_append, rdOptStr, rdStr_enc s r h]
    simp only [Option.some_bind]

/-- A boolean (C `int` flag): one byte. -/
def encBool (b : Bool) : List Nat := [if b then 1 else 0]

/-- Decode a boolean flag. -/
def rdBool : List Nat → Option (Bool × List Nat)
  | 0 :: l => some (false, l)
  | 1 :: l => some (true, l)
  | _ => none

theorem rdBool_enc (b : Bool) (r : List Nat) :
    rdBool (encBool b ++ r) = some (b, r) := by
  cases b <;> rfl

/-- An AFI on the wire: its IANA value as one byte. -/
def encAfi (a : Afi) : List Nat := [a.val]

/-- Decode an AFI. -/
def rdAfi : List Nat → Option (Afi × List Nat)
  | 1 :: l => some (.ipv4, l)
  | 2 :: l => some (.ipv6, l)
  | _ => none

theorem rdAfi_enc (a : Afi) (r : List Nat) :
    rdAfi (encAfi a ++ r) = some (a, r) := by
  cases a <;> rfl

/-- Concatenated encodings of a sequence of elements. -/
def encSeq {α : Type} (enc : α → List Nat) : List α → List Nat
  | [] => []
  | x :: xs => enc x ++ encSeq enc xs

/-- A counted list: the element count as `size_t`, then the elements. -/
def encListOf {α : Type} (enc : α → List Nat) (xs : List α) : List Nat :=
  encU64 xs.length ++ encSeq enc xs

/-- Decode a known number of elements. -/
def rdCount {α : Type} (rd : List Nat → Option (α × List Nat)) :
    Nat → List Nat → Option (List α × List Nat)
  | 0, l => some ([], l)
  | n + 1, l =>
    (rd l).bind fun p =>
      (rdCount rd n p.2).bind fun q => some (p.1 :: q.1, q.2)

theorem rdCount_enc {α : Type} (rd : List Nat → Option (α × List Nat))
    (enc : α → List Nat) :
    ∀ (xs : List α), (∀ x ∈ xs, ∀ s, rd (enc x ++ s) = some (x, s)) →
      ∀ (r : List Nat),
        rdCount rd xs.length (encSeq enc xs ++ r) = some (xs, r)
  | [], _, _ => rfl
  | x :: xs, h, r => by
    rw [List.length_cons, encSeq, List.append_assoc, rdCount,
      h x (List.mem_cons_self x xs) _]
    simp only [Option.some_bind]
    rw [rdCount_enc rd enc xs
      (fun y hy s => h y (List.mem_cons_of_mem x hy) s) r]
    simp only [Option.some_bind]

/-- Decode a counted list. -/
def rdListOf {α : Type} (rd : List Nat → Option (α × List Nat))
    (l : List Nat) : Option (List α × List Nat) :=
  (rdU64 l).bind fun p => rdCount rd p.1 p.2

theorem rdListOf_enc {α : Type} (rd : List Nat → Option (α × List Nat))
    (enc : α → List Nat) (xs : List α) (r : List Nat)
    (hn : xs.length < 18446744073709551616)
    (h : ∀ x ∈ xs, ∀ s, rd (enc x ++ s) = some (x, s)) :
    rdListOf rd (encListOf enc xs ++ r) = some (xs, r) := by
  rw [encListOf, List.append_assoc, rdListOf, rdU64_enc _ _ hn]
  simp only [Option.some_bind]
  exact rdCount_enc rd enc xs h r

/-- `ip_addr_buffer` modelled from the spec: the prefix bit count, then
the address bytes. -/
def ip_addr_buffer (a : IpAddr) : List Nat :=
  a.prefixlen :: encBuf a.addr

/-- `ip_addr_read` modelled from the spec. -/
def ip_addr_read : List Nat → Option (IpAddr × List Nat)
  | [] => none
  | p :: l => (rdBuf l).bind fun q => some (⟨q.1, p⟩, q.2)

/-- An address is well formed when its byte count fits the `uint32`
length prefix. -/
def ipAddrWF (a : IpAddr) : Prop := a.addr.length < 4294967296

instance (a : IpAddr) : Decidable (ipAddrWF a) :=
  inferInstanceAs (Decidable (_ < _))

theorem ip_addr_read_enc (a : IpAddr) (r : List Nat) (h : ipAddrWF a) :
    ip_addr_read (ip_addr_buffer a ++ r) = some (a, r) := by
  rw [ip_addr_buffer, List.cons_append, ip_addr_read, rdBuf_enc a.addr r h]
  simp only [Option.some_bind]

/-- `ip_addr_range_buffer` modelled from the spec: minimum, then
maximum. -/
def ip_addr_range_buffer (rg : IpAddrRange) : List Nat :=
  ip_addr_buffer rg.min ++ ip_addr_buffer rg.max

/-- `ip_addr_range_read` modelled from the spec. -/
def ip_addr_range_read (l : List Nat) : Option (IpAddrRange × List Nat) :=
  (ip_addr_read l).bind fun p =>
    (ip_addr_read p.2).bind fun q => some (⟨p.1, q.1⟩, q.2)

theorem ip_addr_range_read_enc (rg : IpAddrRange) (r : List Nat)
    (h1 : ipAddrWF rg.min) (h2 : ipAddrWF rg.max) :
    ip_addr_range_read (ip_addr_range_buffer rg ++ r) = some (rg, r) := by
  rw [ip_addr_range_buffer, List.append_assoc, ip_addr_range_read,
    ip_addr_read_enc rg.min _ h1]
  simp only [Option.some_bind]
  rw [ip_addr_read_enc rg.max r h2]
  simp only [Option.some_bind]

/-- A `cert_ip_type` on the wire: one tag byte in enum order. -/
def encCertIpType : CertIpType → List Nat
  | .addr => [0]
  | .inherit => [1]
  | .range => [2]

/-- Decode a `cert_ip_type`. -/
def rdCertIpType : List Nat → Option (CertIpType × List Nat)
  | 0 :: l => some (.addr, l)
  | 1 :: l => some (.inherit, l)
  | 2 :: l => some (.range, l)
  | _ => none

theorem rdCertIpType_enc (ty : CertIpType) (r : List Nat) :
    rdCertIpType (encCertIpType ty ++ r) = some (ty, r) := by
  cases ty <;> rfl

/-- One certificate IP element on the wire: AFI, type tag, canonical
minimum and maximum bytes, then both payload members. -/
def certIp_buffer (p : CertIp) : List Nat :=
  encAfi p.afi ++ encCertIpType p.type ++ encBuf p.min ++ encBuf p.max ++
    ip_addr_buffer p.ip ++ ip_addr_range_buffer p.range

/-- Decode one certificate IP element. -/
def certIp_read (l : List Nat) : Option (CertIp × List Nat) :=
  (rdAfi l).bind fun p1 =>
    (rdCertIpType p1.2).bind fun p2 =>
      (rdBuf p2.2).bind fun p3 =>
        (rdBuf p3.2).bind fun p4 =>
          (ip_addr_read p4.2).bind fun p5 =>
            (ip_addr_range_read p5.2).bind fun p6 =>
              some (⟨p1.1, p2.1, p3.1, p4.1, p5.1, p6.1⟩, p6.2)

/-- Well-formedness of a certificate IP element for serialization. -/
def certIpWF (p : CertIp) : Prop :=
  p.min.length < 4294967296 ∧ p.max.length < 4294967296 ∧
  ipAddrWF p.ip ∧ ipAddrWF p.range.min ∧ ipAddrWF p.range.max

instance (p : CertIp) : Decidable (certIpWF p) :=
  inferInstanceAs (Decidable (_ ∧ _ ∧ _ ∧ _ ∧ _))

theorem certIp_read_enc (p : CertIp) (r : List Nat) (h : certIpWF p) :
    certIp_read (certIp_buffer p ++ r) = some (p, r) := by
  obtain ⟨h1, h2, h3, h4, h5⟩ := h
  rw [certIp_buffer, List.append_assoc, List.append_assoc,
    List.append_assoc, List.append_assoc, List.append_assoc,
    certIp_read, rdAfi_enc]
  simp only [Option.some_bind]
  rw [rdCertIpType_enc]
  simp only [Option.some_bind]
  rw [rdBuf_enc p.min _ h1]
  simp only [Option.some_bind]
  rw [rdBuf_enc p.max _ h2]
  simp only [Option.some_bind]
  rw [ip_addr_read_enc p.ip _ h3]
  simp only [Option.some_bind]
  rw [ip_addr_range_read_enc p.range r h4 h5]
  simp only [Option.some_bind]

/-- One AS element on the wire: a tag byte in enum order
(`CERT_AS_ID` = 0, `CERT_AS_INHERIT` = 1, `CERT_AS_RANGE` = 2), then the
payload. -/
def certAs_buffer : CertAs → List Nat
  | .id i => 0 :: encU32 i
  | .inherit => [1]
  | .range rg => 2 :: (encU32 rg.min ++ encU32 rg.max)

/-- Decode one AS element. -/
def certAs_read : List Nat → Option (CertAs × List Nat)
  | 0 :: l => (rdU32 l).bind fun p => some (.id p.1, p.2)
  | 1 :: l => some (.inherit, l)
  | 2 :: l =>
    (rdU32 l).bind fun p =>
      (rdU32 p.2).bind fun q => some (.range ⟨p.1, q.1⟩, q.2)
  | _ => none

/-- Well-formedness of an AS element: identifiers fit 32 bits. -/
def certAsWF : CertAs → Prop
  | .id i => i < 4294967296
  | .inherit => True
  | .range rg => rg.min < 4294967296 ∧ rg.max < 4294967296

instance : ∀ (a : CertAs), Decidable (certAsWF a)
  | .id _ => inferInstanceAs (Decidable (_ < _))
  | .inherit => inferInstanceAs (Decidable True)
  | .range _ => inferInstanceAs (Decidable (_ ∧ _))

theorem certAs_read_enc (a : CertAs) (r : List Nat) (h : certAsWF a) :
    certAs_read (certAs_buffer a ++ r) = some (a, r) := by
  cases a with
  | id i =>
    rw [certAs_buffer, List.cons_append, certAs_read, rdU32_enc i r h]
    simp only [Option.some_bind]
  | inherit => rfl
  | range rg =>
    rw [certAs_buffer, List.cons_append, List.append_assoc, certAs_read,
      rdU32_enc rg.min _ h.1]
    simp only [Option.some_bind]
    rw [rdU32_enc rg.max r h.2]
    simp only [Option.some_bind]

/-- A TAL (`struct tal` in extern.h): the well-formed rsync URIs, the
DER-encoded public key, and the basename description. -/
structure Tal where
  uri : List (List Nat)
  pkey : List Nat
  descr : List Nat
deriving DecidableEq

/-- `tal_buffer` modelled from the spec: URI list, key buffer,
description. -/
def tal_buffer (t : Tal) : List Nat :=
  encListOf encStr t.uri ++ encBuf t.pkey ++ encStr t.descr

/-- `tal_read` modelled from the spec. -/
def tal_read (l : List Nat) : Option (Tal × List Nat) :=
  (rdListOf rdStr l).bind fun p1 =>
    (rdBuf p1.2).bind fun p2 =>
      (rdStr p2.2).bind fun p3 =>
        some (⟨p1.1, p2.1, p3.1⟩, p3.2)

/-- Well-formedness of a TAL for serialization. -/
def talWF (t : Tal) : Prop :=
  t.uri.length < 18446744073709551616 ∧
  (∀ u ∈ t.uri, u.length < 4294967296) ∧
  t.pkey.length < 4294967296 ∧ t.descr.length < 4294967296

instance (t : Tal) : Decidable (talWF t) :=
  inferInstanceAs (Decidable (_ ∧ _ ∧ _ ∧ _))

theorem tal_read_enc (t : Tal) (r : List Nat) (h : talWF t) :
    tal_read (tal_buffer t ++ r) = some (t, r) := by
  obtain ⟨hu, hue, hp, hd⟩ := h
  rw [tal_buffer, List.append_assoc, List.append_assoc, tal_read,
    rdListOf_enc rdStr encStr t.uri _ hu
      (fun x hx s => rdStr_enc x s (hue x hx))]
  simp only [Option.some_bind]
  rw [rdBuf_enc t.pkey _ hp]
  simp only [Option.some_bind]
  rw [rdStr_enc t.descr r hd]
  simp only [Option.some_bind]

/-- `cert_buffer` modelled from the spec: every field of `struct cert`
in declaration order (the opaque `X509 *` handle is not wire data). -/
def cert_buffer (c : Cert) : List Nat :=
  encListOf certIp_buffer c.ips ++ encListOf certAs_buffer c.asRes ++
    encStr c.repo ++ encStr c.mft ++ encOptStr c.notify ++
    encOptStr c.crl ++ encOptStr c.aia ++ encOptStr c.aki ++
    encStr c.ski ++ encBool c.valid

/-- `cert_read` modelled from the spec. -/
def cert_read (l : List Nat) : Option (Cert × List Nat) :=
  (rdListOf certIp_read l).bind fun p1 =>
    (rdListOf certAs_read p1.2).bind fun p2 =>
      (rdStr p2.2).bind fun p3 =>
        (rdStr p3.2).bind fun p4 =>
          (rdOptStr p4.2).bind fun p5 =>
            (rdOptStr p5.2).bind fun p6 =>
              (rdOptStr p6.2).bind fun p7 =>
                (rdOptStr p7.2).bind fun p8 =>
                  (rdStr p8.2).bind fun p9 =>
                    (rdBool p9.2).bind fun p10 =>
                      some (⟨p1.1, p2.1, p3.1, p4.1, p5.1, p6.1, p7.1,
                        p8.1, p9.1, p10.1⟩, p10.2)

/-- Well-formedness of a certificate for serialization. -/
def certWF (c : Cert) : Prop :=
  c.ips.length < 18446744073709551616 ∧ (∀ p ∈ c.ips, certIpWF p) ∧
  c.asRes.length < 18446744073709551616 ∧ (∀ a ∈ c.asRes, certAsWF a) ∧
  c.repo.length < 4294967296 ∧ c.mft.length < 4294967296 ∧
  optStrWF c.notify ∧ optStrWF c.crl ∧ optStrWF c.aia ∧
  optStrWF c.aki ∧ c.ski.length < 4294967296

instance (c : Cert) : Decidable (certWF c) :=
  inferInstanceAs
    (Decidable (_ ∧ _ ∧ _ ∧ _ ∧ _ ∧ _ ∧ _ ∧ _ ∧ _ ∧ _ ∧ _))

theorem cert_read_enc (c : Cert) (r : List Nat) (h : certWF c) :
    cert_read (cert_buffer c ++ r) = some (c, r) := by
  obtain ⟨h1, h2, h3, h4, h5, h6, h7, h8, h9, h10, h11⟩ := h
  rw [cert_buffer, List.append_assoc, List.append_assoc, List.append_assoc,
    List.append_assoc, List.append_assoc, List.append_assoc,
    List.append_assoc, List.append_assoc, List.append_assoc,
    cert_read,
    rdListOf_enc certIp_read certIp_buffer c.ips _ h1
      (fun x hx s => certIp_read_enc x s (h2 x hx))]
  simp only [Option.some_bind]
  rw [rdListOf_enc certAs_read certAs_buffer c.asRes _ h3
    (fun x hx s => certAs_read_enc x s (h4 x hx))]
  simp only [Option.some_bind]
  rw [rdStr_enc c.repo _ h5]
  simp only [Option.some_bind]
  rw [rdStr_enc c.mft _ h6]
  simp only [Option.some_bind]
  rw [rdOptStr_enc c.notify _ h7]
  simp only [Option.some_bind]
  rw [rdOptStr_enc c.crl _ h8]
  simp only [Option.some_bind]
  rw [rdOptStr_enc c.aia _ h9]
  simp only [Option.some_bind]
  rw [rdOptStr_enc c.aki _ h10]
  simp only [Option.some_bind]
  rw [rdStr_enc c.ski _ h11]
  simp only [Option.some_bind]
  rw [rdBool_enc c.valid r]
  simp only [Option.some_bind]

/-- A manifest entry (`struct mftfile` in extern.h): filename and SHA-256
body hash. -/
structure MftFile where
  file : List Nat
  hash : List Nat
deriving DecidableEq

/-- A manifest (`struct mft` in extern.h). -/
structure Mft where
  file : List Nat
  files : List MftFile
  stale : Bool
  seqnum : List Nat
  aia : List Nat
  aki : List Nat
  ski : List Nat
deriving DecidableEq

/-- One manifest entry on the wire. -/
def mftFile_buffer (f : MftFile) : List Nat :=
  encStr f.file ++ encBuf f.hash

/-- Decode one manifest entry. -/
def mftFile_read (l : List Nat) : Option (MftFile × List Nat) :=
  (rdStr l).bind fun p =>
    (rdBuf p.2).bind fun q => some (⟨p.1, q.1⟩, q.2)

/-- Well-formedness of a manifest entry for serialization. -/
def mftFileWF (f : MftFile) : Prop :=
  f.file.length < 4294967296 ∧ f.hash.length < 4294967296

instance (f : MftFile) : Decidable (mftFileWF f) :=
  inferInstanceAs (Decidable (_ ∧ _))

theorem mftFile_read_enc (f : MftFile) (r : List Nat) (h : mftFileWF f) :
    mftFile_read (mftFile_buffer f ++ r) = some (f, r) := by
  rw [mftFile_buffer, List.append_assoc, mftFile_read,
    rdStr_enc f.file _ h.1]
  simp only [Option.some_bind]
  rw [rdBuf_enc f.hash r h.2]
  simp only [Option.some_bind]

/-- `mft_buffer` modelled from the spec: every field of `struct mft` in
declaration order. -/
def mft_buffer (m : Mft) : List Nat :=
  encStr m.file ++ encListOf mftFile_buffer m.files ++ encBool m.stale ++
    encStr m.seqnum ++ encStr m.aia ++ encStr m.aki ++ encStr m.ski

/-- `mft_read` modelled from the spec. -/
def mft_read (l : List Nat) : Option (Mft × List Nat) :=
  (rdStr l).bind fun p1 =>
    (rdListOf mftFile_read p1.2).bind fun p2 =>
      (rdBool p2.2).bind fun p3 =>
        (rdStr p3.2).bind fun p4 =>
          (rdStr p4.2).bind fun p5 =>
            (rdStr p5.2).bind fun p6 =>
              (rdStr p6.2).bind fun p7 =>
                some (⟨p1.1, p2.1, p3.1, p4.1, p5.1, p6.1, p7.1⟩, p7.2)

/-- Well-formedness of a manifest for serialization. -/
def mftWF (m : Mft) : Prop :=
  m.file.length < 4294967296 ∧
  m.files.length < 18446744073709551616 ∧
  (∀ f ∈ m.files, mftFileWF f) ∧
  m.seqnum.length < 4294967296 ∧ m.aia.length < 4294967296 ∧
  m.aki.length < 4294967296 ∧ m.ski.length < 4294967296

instance (m : Mft) : Decidable (mftWF m) :=
  inferInstanceAs (Decidable (_ ∧ _ ∧ _ ∧ _ ∧ _ ∧ _ ∧ _))

theorem mft_read_enc (m : Mft) (r : List Nat) (h : mftWF m) :
    mft_read (mft_buffer m ++ r) = some (m, r) := by
  obtain ⟨h1, h2, h3, h4, h5, h6, h7⟩ := h
  rw [mft_buffer, List.append_assoc, List.append_assoc, List.append_assoc,
    List.append_assoc, List.append_assoc, List.append_assoc,
    mft_read, rdStr_enc m.file _ h1]
  simp only [Option.some_bind]
  rw [rdListOf_enc mftFile_read mftFile_buffer m.files _ h2
    (fun x hx s => mftFile_read_enc x s (h3 x hx))]
  simp only [Option.some_bind]
  rw [rdBool_enc m.stale]
  simp only [Option.some_bind]
  rw [rdStr_enc m.seqnum _ h4]
  simp only [Option.some_bind]
  rw [rdStr_enc m.aia _ h5]
  simp only [Option.some_bind]
  rw [rdStr_enc m.aki _ h6]
  simp only [Option.some_bind]
  rw [rdStr_enc m.ski r h7]
  simp only [Option.some_bind]

/-- One ROA prefix entry on the wire: AFI, maxlength, canonical range
bytes, and the prefix itself. -/
def roaIp_buffer (ip : RoaIp) : List Nat :=
  encAfi ip.afi ++ encU64 ip.maxlength ++ encBuf ip.min ++
    encBuf ip.max ++ ip_addr_buffer ip.addr

/-- Decode one ROA prefix entry. -/
def roaIp_read (l : List Nat) : Option (RoaIp × List Nat) :=
  (rdAfi l).bind fun p1 =>
    (rdU64 p1.2).bind fun p2 =>
      (rdBuf p2.2).bind fun p3 =>
        (rdBuf p3.2).bind fun p4 =>
          (ip_addr_read p4.2).bind fun p5 =>
            some (⟨p1.1, p2.1, p3.1, p4.1, p5.1⟩, p5.2)

/-- Well-formedness of a ROA prefix entry for serialization. -/
def roaIpWF (ip : RoaIp) : Prop :=
  ip.maxlength < 18446744073709551616 ∧
  ip.min.length < 4294967296 ∧ ip.max.length < 4294967296 ∧
  ipAddrWF ip.addr

instance (ip : RoaIp) : Decidable (roaIpWF ip) :=
  inferInstanceAs (Decidable (_ ∧ _ ∧ _ ∧ _))

theorem roaIp_read_enc (ip : RoaIp) (r : List Nat) (h : roaIpWF ip) :
    roaIp_read (roaIp_buffer ip ++ r) = some (ip, r) := by
  obtain ⟨h1, h2, h3, h4⟩ := h
  rw [roaIp_buffer, List.append_assoc, List.append_assoc,
    List.append_assoc, List.append_assoc, roaIp_read, rdAfi_enc]
  simp only [Option.some_bind]
  rw [rdU64_enc ip.maxlength _ h1]
  simp only [Option.some_bind]
  rw [rdBuf_enc ip.min _ h2]
  simp only [Option.some_bind]
  rw [rdBuf_enc ip.max _ h3]
  simp only [Option.some_bind]
  rw [ip_addr_read_enc ip.addr r h4]
  simp only [Option.some_bind]

/-- `roa_buffer` modelled from the spec: every field of `struct roa` in
declaration order. -/
def roa_buffer (x : Roa) : List Nat :=
  encU32 x.asid ++ encListOf roaIp_buffer x.ips ++ encBool x.valid ++
    encStr x.aia ++ encStr x.aki ++ encStr x.ski ++ encStr x.tal ++
    encI64 x.expires

/-- `roa_read` modelled from the spec. -/
def roa_read (l : List Nat) : Option (Roa × List Nat) :=
  (rdU32 l).bind fun p1 =>
    (rdListOf roaIp_read p1.2).bind fun p2 =>
      (rdBool p2.2).bind fun p3 =>
        (rdStr p3.2).bind fun p4 =>
          (rdStr p4.2).bind fun p5 =>
            (rdStr p5.2).bind fun p6 =>
              (rdStr p6.2).bind fun p7 =>
                (rdI64 p7.2).bind fun p8 =>
                  some (⟨p1.1, p2.1, p3.1, p4.1, p5.1, p6.1, p7.1,
                    p8.1⟩, p8.2)

/-- Well-formedness of a ROA for serialization. -/
def roaWF (x : Roa) : Prop :=
  x.asid < 4294967296 ∧
  x.ips.length < 18446744073709551616 ∧
  (∀ ip ∈ x.ips, roaIpWF ip) ∧
  x.aia.length < 4294967296 ∧ x.aki.length < 4294967296 ∧
  x.ski.length < 4294967296 ∧ x.tal.length < 4294967296 ∧
  -9223372036854775808 ≤ x.expires ∧ x.expires < 9223372036854775808

instance (x : Roa) : Decidable (roaWF x) :=
  inferInstanceAs (Decidable (_ ∧ _ ∧ _ ∧ _ ∧ _ ∧ _ ∧ _ ∧ _ ∧ _))

theorem roa_read_enc (x : Roa) (r : List Nat) (h : roaWF x) :
    roa_read (roa_buffer x ++ r) = some (x, r) := by
  obtain ⟨h1, h2, h3, h4, h5, h6, h7, h8, h9⟩ := h
  rw [roa_buffer, List.append_assoc, List.append_assoc, List.append_assoc,
    List.append_assoc, List.append_assoc, List.append_assoc,
    List.append_assoc, roa_read, rdU32_enc x.asid _ h1]
  simp only [Option.some_bind]
  rw [rdListOf_enc roaIp_read roaIp_buffer x.ips _ h2
    (fun y hy s => roaIp_read_enc y s (h3 y hy))]
  simp only [Option.some_bind]
  rw [rdBool_enc x.valid]
  simp only [Option.some_bind]
  rw [rdStr_enc x.aia _ h4]
  simp only [Option.some_bind]
  rw [rdStr_enc x.aki _ h5]
  simp only [Option.some_bind]
  rw [rdStr_enc x.ski _ h6]
  simp only [Option.some_bind]
  rw [rdStr_enc x.tal _ h7]
  simp only [Option.some_bind]
  rw [rdI64_enc x.expires r h8 h9]
  simp only [Option.some_bind]

/-- C5: for each of the four IPC payloads — tal, cert, mft, roa — a
well-formed structure serialized by `*_buffer` and decoded by `*_read`
comes back equal to the original in every field, with the rest of the
stream untouched. -/
theorem c5_ipc_round_trip :
    (∀ (t : Tal) (r : List Nat), talWF t →
      tal_read (tal_buffer t ++ r) = some (t, r)) ∧
    (∀ (c : Cert) (r : List Nat), certWF c →
      cert_read (cert_buffer c ++ r) = some (c, r)) ∧
    (∀ (m : Mft) (r : List Nat), mftWF m →
      mft_read (mft_buffer m ++ r) = some (m, r)) ∧
    (∀ (x : Roa) (r : List Nat), roaWF x →
      roa_read (roa_buffer x ++ r) = some (x, r)) :=
  ⟨fun t r h => tal_read_enc t r h,
   fun c r h => cert_read_enc c r h,
   fun m r h => mft_read_enc m r h,
   fun x r h => roa_read_enc x r h⟩

/-- A sample TAL used by the witness. -/
def talSample : Tal :=
  { uri := [[114, 115, 121, 110, 99]]
    pkey := [48, 130, 1, 10]
    descr := [116, 97, 108] }

/-- A sample certificate used by the witness. -/
def certSample : Cert := authSample.cert

/-- A sample manifest used by the witness. -/
def mftSample : Mft :=
  { file := [109, 46, 109, 102, 116]
    files := [⟨[97, 46, 99, 101, 114], [1, 2, 3]⟩]
    stale := false
    seqnum := [49, 48]
    aia := [97]
    aki := [107]
    ski := [115] }

theorem c5_witness :
    tal_read (tal_buffer talSample ++ []) = some (talSample, []) ∧
    cert_read (cert_buffer certSample ++ []) = some (certSample, []) ∧
    mft_read (mft_buffer mftSample ++ []) = some (mftSample, []) ∧
    roa_read (roa_buffer roaSample ++ []) = some (roaSample, []) :=
  ⟨c5_ipc_round_trip.1 talSample [] (by decide),
   c5_ipc_round_trip.2.1 certSample [] (by decide),
   c5_ipc_round_trip.2.2.1 mftSample [] (by decide),
   c5_ipc_round_trip.2.2.2 roaSample [] (by decide)⟩

end Rpki
